import Mathlib

/-!
Shallow embedding of `examples/eval_cyw20735/rand.py`: a harness that
installs an RNG-dumping routine on a CYW20735 board, triggers it once per
round, waits for a completion notification, reads back the harvested
buffer, validates an embedded sentinel pattern (every 5th byte must be
0x42), retries corrupted rounds, and finally strips the sentinel bytes.

Buffers are lists of byte values (`List Nat`); device addresses are `Nat`.
-/

/-- Load address of the injected snippet (`ASM_LOCATION_RNG = 0x217000`). -/
def ASM_LOCATION_RNG : Nat := 0x217000

/-- Where the snippet stores its results (`MEM_RNG = ASM_LOCATION_RNG + 0xf0`). -/
def MEM_RNG : Nat := ASM_LOCATION_RNG + 0xf0

/-- Number of 5-byte records the snippet produces per trigger (`MEM_ROUNDS = 0x500`). -/
def MEM_ROUNDS : Nat := 0x500

/-- Address of the original RNG function that gets neutralized (`FUN_RNG = 0xA562E`). -/
def FUN_RNG : Nat := 0xA562E

/-- The sentinel byte the snippet writes as every 5th byte (`0x42`). -/
def sentinel : Nat := 0x42

/-- Elements of a list at indices 0, 5, 10, ...; building block for the
Python slice `random[4::5]`. -/
def every5th : List Nat → List Nat
  | x :: _ :: _ :: _ :: _ :: rest => x :: every5th rest
  | x :: _ => [x]
  | [] => []

/-- The Python slice `random[4::5]` from the check loop: the bytes at the
sentinel positions 4, 9, 14, ... of the buffer. -/
def sentinelBytes (l : List Nat) : List Nat := every5th (l.drop 4)

/-- The check loop of the harvester:
`pos = 0; for c in check: pos += 1; if c != 0x42: failed at pos`.
Returns `some pos` (1-based index of the first mismatching sentinel byte,
after the increment) or `none` when every byte passes. -/
def checkLoop : List Nat → Nat → Option Nat
  | [], _ => none
  | c :: cs, pos => if c ≠ sentinel then some (pos + 1) else checkLoop cs (pos + 1)

/-- Outcome of validating one harvested buffer. `Corrupted a` carries the
address the harness logs: `MEM_RNG + pos * 5`. -/
inductive ValidationResult where
  | Valid : ValidationResult
  | Corrupted : Nat → ValidationResult
deriving DecidableEq, Repr

/-- The per-round integrity validation (lines 205-213): slice out every 5th
byte starting at index 4 and scan it for the first byte that is not `0x42`;
on a mismatch the harness reports address `MEM_RNG + pos * 5`. -/
def validate (buffer : List Nat) : ValidationResult :=
  match checkLoop (sentinelBytes buffer) 0 with
  | none => .Valid
  | some pos => .Corrupted (MEM_RNG + pos * 5)

/-- `np.delete(data, np.arange(4, len(data), 5))` from line 225: drop the
bytes at indices 4, 9, 14, ... and keep everything else, in order. -/
def strip : List Nat → List Nat
  | x0 :: x1 :: x2 :: x3 :: _ :: rest => x0 :: x1 :: x2 :: x3 :: strip rest
  | l => l

/-- The mutable state of the harvest loop: the round counter `i` and the
accumulated raw data `data` (what `data.extend(random)` appends to). -/
structure HarvestState where
  i : Nat
  data : List Nat
deriving DecidableEq, Repr

/-- One pass through the body of the harvest loop, given the buffer the
round's `readMem` returned: a corrupted buffer is discarded (`continue`,
state untouched), a valid one is appended and the round counter advanced. -/
def harvestStep (buf : List Nat) (s : HarvestState) : HarvestState :=
  match validate buf with
  | .Corrupted _ => s
  | .Valid => ⟨s.i + 1, s.data ++ buf⟩

/-- The harvest loop `while rounds > i: ...` (lines 190-220), driven by the
finite sequence of buffers the successive `readMem` calls return; the loop
stops when the round counter reaches `rounds` (or when the supplied
sequence of reads is exhausted). -/
def harvestLoop (rounds : Nat) : List (List Nat) → HarvestState → HarvestState
  | [], s => s
  | b :: bs, s => if s.i < rounds then harvestLoop rounds bs (harvestStep b s) else s

/-- Observable events of one harvest session, in program order:
`trigger` is the `launchRam` call, `waitReturn` is the moment the busy-wait
on `rnd_done` falls through, `readEv` the `readMem` call, and
`retryEv`/`acceptEv` record how the round ended. -/
inductive Event where
  | trigger : Event
  | waitReturn : Event
  | readEv : Event
  | acceptEv : Event
  | retryEv : Event
deriving DecidableEq, Repr

/-- The events one loop iteration emits (lines 194-220): launch the
snippet, wait for the completion notification, read the buffer, then
either retry (corrupted) or accept (valid). -/
def roundEvents (buf : List Nat) : List Event :=
  [.trigger, .waitReturn, .readEv] ++
    match validate buf with
    | .Corrupted _ => [.retryEv]
    | .Valid => [.acceptEv]

/-- The full event trace of the harvest loop over a sequence of reads. -/
def harvestTrace (rounds : Nat) : List (List Nat) → HarvestState → List Event
  | [], _ => []
  | b :: bs, s =>
      if s.i < rounds then roundEvents b ++ harvestTrace rounds bs (harvestStep b s) else []

/-- Projection of a trace onto the synchronization events: triggers and
wait-returns. -/
def syncEvents (l : List Event) : List Event :=
  l.filter (fun e => decide (e = .trigger ∨ e = .waitReturn))

/-- `n` strictly alternating trigger/wait-return pairs, starting with a
trigger: the shape a correctly synchronized session projects to. -/
def triggerWaitPairs : Nat → List Event
  | 0 => []
  | n + 1 => .trigger :: .waitReturn :: triggerWaitPairs n

/-- An HCI record as seen by the registered callback: whether the packet
is an `HCI_Event` (the `issubclass` test) and its payload bytes. -/
structure HciPacket where
  isEvent : Bool
  data : List Nat
deriving DecidableEq, Repr

/-- The 4-byte completion marker `bytes("RAND", "utf-8")`. -/
def RAND_MARKER : List Nat := [0x52, 0x41, 0x4E, 0x44]

/-- The registered HCI callback (lines 169-177) as a transition on the
`rnd_done` flag: non-events leave the flag alone; an event whose first four
payload bytes are the marker sets it; anything else leaves it alone. -/
def rngStatusCallback (st : Bool) (record : HciPacket) : Bool :=
  if record.isEvent = false then st
  else if record.data.take 4 = RAND_MARKER then true
  else st

/-- A packet that releases the wait: an HCI event carrying the marker. -/
def isRandNotif (p : HciPacket) : Prop :=
  p.isEvent = true ∧ p.data.take 4 = RAND_MARKER

instance (p : HciPacket) : Decidable (isRandNotif p) := by
  unfold isRandNotif; infer_instance

/-- The flag after the callback has processed a sequence of records. -/
def flagAfter (ps : List HciPacket) (st : Bool) : Bool :=
  ps.foldl rngStatusCallback st

/-- The busy-wait `while not internalblue.rnd_done: continue` (lines
197-198), starting with the flag clear and driven by the stream of
incoming HCI records: it consumes records until one sets the flag and
returns how many records were consumed together with the rest of the
stream; if the stream ends with the flag still clear the wait never
returns (`none`). -/
def waitForDone : List HciPacket → Option (Nat × List HciPacket)
  | [] => none
  | p :: ps =>
      if rngStatusCallback false p then some (1, ps)
      else (waitForDone ps).map (fun r => (r.1 + 1, r.2))

/-- Result of one `readMem` call. Modelled from the spec: the transport
`read` collaborator is outside this file's source and "fails with
`TransportError`"; `fail` stands for that failure, `ok` for a returned
buffer. -/
inductive ReadResult where
  | ok : List Nat → ReadResult
  | fail : ReadResult
deriving DecidableEq, Repr

/-- How one round of the harvest loop ends, seen from the caller. -/
inductive RoundOutcome where
  | retried : HarvestState → RoundOutcome
  | accepted : HarvestState → RoundOutcome
  | escaped : RoundOutcome
deriving DecidableEq, Repr

/-- One round of the loop including the read (lines 202-220). The loop
body has no handler around `readMem`: when the read fails there is nothing
to slice or validate and the failure propagates out of the loop
(`escaped`); only a successfully read buffer is validated, and only a
corrupted buffer causes a same-round retry. -/
def roundWithRead : ReadResult → HarvestState → RoundOutcome
  | .fail, _ => .escaped
  | .ok buf, s =>
      match validate buf with
      | .Corrupted _ => .retried s
      | .Valid => .accepted ⟨s.i + 1, s.data ++ buf⟩

/-- Whether the one-time install phase completes or aborts the session. -/
inductive SessionPhase where
  | aborted : SessionPhase
  | installed : SessionPhase
deriving DecidableEq, Repr

/-- The install phase (lines 136-152): the snippet write and the two
patch-site writes in order; the first failure hits `exit(-1)` and aborts
the whole session, with no recovery attempted. -/
def installPhase (writeOk patchRngOk patchLaunchOk : Bool) : SessionPhase :=
  if writeOk = false then .aborted
  else if patchRngOk = false then .aborted
  else if patchLaunchOk = false then .aborted
  else .installed

/-- `p32(n)`: the 4-byte little-endian packing used for the handler-table
entry. -/
def p32 (n : Nat) : List Nat :=
  [n % 2 ^ 8, n / 2 ^ 8 % 2 ^ 8, n / 2 ^ 16 % 2 ^ 8, n / 2 ^ 24 % 2 ^ 8]

/-- The 2-byte Thumb encoding of `bx lr`; the source comment notes
"2 times bx lr is 4 bytes and we can only patch 4 bytes". -/
def bxLr : List Nat := [0x70, 0x47]

/-- `asm("bx lr; bx lr")`: the replacement bytes that neutralize the
original RNG function at `FUN_RNG`. -/
def rngNeutralizePatch : List Nat := bxLr ++ bxLr

/-- `p32(ASM_LOCATION_RNG + 1)`: the replacement bytes written over the
broken Launch_RAM handler-table entry at `0x1425BC`. -/
def launchRamFixPatch : List Nat := p32 (ASM_LOCATION_RNG + 1)

/-- The device's minimum atomic patch width (4 bytes), per the source
comment on the `patchRom` call. -/
def PATCH_SLOT_WIDTH : Nat := 4

/-- Python `%`-formatting as used on the snippet template: each `%x`
directive consumes the next value and is replaced by its lowercase hex
rendering; every other character is copied through. -/
def substPercents : List Char → List Nat → List Char
  | [], _ => []
  | '%' :: 'x' :: rest, v :: vs => Nat.toDigits 16 v ++ substPercents rest vs
  | c :: rest, vs => c :: substPercents rest vs

/-- `ASM_SNIPPET_RNG % (MEM_ROUNDS, MEM_RNG)` followed by the external
assembler: the end-to-end patch assembly `asm(template % params, vma)`.
The assembler itself (`asm` from pwntools) is outside this repository;
modelled from the spec as a pure function ("No side effects; pure
function") and taken here as an explicit parameter. -/
def assembleSnippet (asmFun : String → Nat → List Nat)
    (template : String) (roundCount dstAddress vma : Nat) : List Nat :=
  asmFun (String.mk (substPercents template.data [roundCount, dstAddress])) vma

/-- The instruction text of `ASM_SNIPPET_RNG` (the injected routine), with
the two `%x` parameter slots for the round count and the destination
address. -/
def ASM_SNIPPET_RNG : String :=
  "push \x7br0-r7, lr\x7d
mov r0, #0xFC4E
mov r1, 0
bl 0x24E66
ldr r0, =0x%x
ldr r1, =0x%x
bl dump_rng
bl notify_hci
pop \x7br0-r7, pc\x7d
dump_rng:
wait_ready:
ldr r2, =0x352604
ldr r2, [r2]
ldr r3, =0x200fffff
cmp r2, r3
bne wait_ready
mov r3, 1
ldr r2, =0x352600
str r3, [r2]
ldr r2, =0x352608
ldr r3, [r2]
str r3, [r1]
add r1, 4
mov r3, 0x42
str r3, [r1]
add r1, 1
subs r0, 1
bne dump_rng
bx lr
notify_hci:
push \x7br0-r4, lr\x7d
mov r2, 243
mov r1, 0xff
mov r0, 245
bl 0x24E92
mov r4, r0
add r0, 10
ldr r1, =0x444e4152
str r1, [r0]
add r0, 4
mov r0, r4
bl 0x24C36
pop \x7br0-r4, pc\x7d
"

/-! ### Helper lemmas about the sentinel slice and the check loop -/

theorem every5th_getElem (k : Nat) : ∀ l : List Nat, (every5th l)[k]? = l[5 * k]? := by
  induction k with
  | zero =>
    intro l
    rcases l with _ | ⟨a, _ | ⟨b, _ | ⟨c, _ | ⟨d, _ | ⟨e, rest⟩⟩⟩⟩⟩ <;> simp [every5th]
  | succ k ih =>
    intro l
    rcases l with _ | ⟨a, _ | ⟨b, _ | ⟨c, _ | ⟨d, _ | ⟨e, rest⟩⟩⟩⟩⟩
    · simp [every5th]
    · have h1 : every5th [a] = [a] := rfl
      rw [h1, List.getElem?_eq_none (by simp), List.getElem?_eq_none (by simp; omega)]
    · have h1 : every5th [a, b] = [a] := rfl
      rw [h1, List.getElem?_eq_none (by simp), List.getElem?_eq_none (by simp; omega)]
    · have h1 : every5th [a, b, c] = [a] := rfl
      rw [h1, List.getElem?_eq_none (by simp), List.getElem?_eq_none (by simp; omega)]
    · have h1 : every5th [a, b, c, d] = [a] := rfl
      rw [h1, List.getElem?_eq_none (by simp), List.getElem?_eq_none (by simp; omega)]
    · have h1 : every5th (a :: b :: c :: d :: e :: rest) = a :: every5th rest := rfl
      have h2 : a :: b :: c :: d :: e :: rest = [a, b, c, d, e] ++ rest := rfl
      have h3 : ([a, b, c, d, e] : List Nat).length ≤ 5 * (k + 1) := by
        simp only [List.length_cons, List.length_nil]
        omega
      rw [h1, List.getElem?_cons_succ, ih, h2, List.getElem?_append_right h3]
      congr 1

theorem sentinelBytes_getElem (l : List Nat) (k : Nat) :
    (sentinelBytes l)[k]? = l[5 * k + 4]? := by
  unfold sentinelBytes
  rw [every5th_getElem, List.getElem?_drop]
  congr 1
  omega

theorem mem_sentinelBytes_iff (l : List Nat) (c : Nat) :
    c ∈ sentinelBytes l ↔ ∃ p, p % 5 = 4 ∧ l[p]? = some c := by
  rw [List.mem_iff_getElem?]
  constructor
  · rintro ⟨k, hk⟩
    exact ⟨5 * k + 4, by omega, by rwa [sentinelBytes_getElem] at hk⟩
  · rintro ⟨p, hp, hc⟩
    refine ⟨p / 5, ?_⟩
    rw [sentinelBytes_getElem]
    have : 5 * (p / 5) + 4 = p := by omega
    rwa [this]

theorem checkLoop_eq_none_iff : ∀ (cs : List Nat) (pos : Nat),
    checkLoop cs pos = none ↔ ∀ c ∈ cs, c = sentinel := by
  intro cs
  induction cs with
  | nil => intro pos; simp [checkLoop]
  | cons c cs ih =>
    intro pos
    by_cases hc : c = sentinel
    · simp [checkLoop, hc, ih]
    · simp [checkLoop, hc]

theorem validate_eq_valid_iff (b : List Nat) :
    validate b = .Valid ↔ ∀ c ∈ sentinelBytes b, c = sentinel := by
  unfold validate
  rcases h : checkLoop (sentinelBytes b) 0 with _ | pos
  · simpa [h] using (checkLoop_eq_none_iff (sentinelBytes b) 0).mp h
  · simp only [h]
    constructor
    · intro hcontra; exact absurd hcontra (by simp)
    · intro hall
      have : checkLoop (sentinelBytes b) 0 = none :=
        (checkLoop_eq_none_iff (sentinelBytes b) 0).mpr hall
      rw [h] at this
      exact absurd this (by simp)

theorem validate_corrupted_iff (b : List Nat) :
    (∃ off, validate b = .Corrupted off) ↔ ∃ c ∈ sentinelBytes b, c ≠ sentinel := by
  constructor
  · rintro ⟨off, hoff⟩
    by_contra hno
    push_neg at hno
    have : validate b = .Valid := (validate_eq_valid_iff b).mpr hno
    rw [this] at hoff
    exact absurd hoff (by simp)
  · rintro ⟨c, hc, hne⟩
    rcases h : validate b with _ | off
    · have := (validate_eq_valid_iff b).mp h c hc
      exact absurd this hne
    · exact ⟨off, rfl⟩

theorem checkLoop_mismatch : ∀ (k : Nat) (cs : List Nat) (pos c : Nat),
    cs[k]? = some c → c ≠ sentinel → (∀ j, j < k → cs[j]? = some sentinel) →
    checkLoop cs pos = some (pos + k + 1) := by
  intro k
  induction k with
  | zero =>
    intro cs pos c hget hne _
    rcases cs with _ | ⟨d, cs⟩
    · simp at hget
    · simp at hget
      subst hget
      simp [checkLoop, hne]
  | succ k ih =>
    intro cs pos c hget hne hpre
    rcases cs with _ | ⟨d, cs⟩
    · simp at hget
    · have hd : d = sentinel := by
        have := hpre 0 (by omega)
        simpa using this
      rw [List.getElem?_cons_succ] at hget
      have hpre2 : ∀ j, j < k → cs[j]? = some sentinel := by
        intro j hj
        have := hpre (j + 1) (by omega)
        simpa using this
      have hrec := ih cs (pos + 1) c hget hne hpre2
      simp only [checkLoop, hd, ne_eq, not_true_eq_false, if_false, ite_false]
      rw [hrec]
      congr 1
      omega

theorem every5th_length : ∀ (n : Nat) (l : List Nat), l.length = n →
    (every5th l).length = (l.length + 4) / 5 := by
  intro n
  induction n using Nat.strong_induction_on with
  | _ n ih =>
    intro l hl
    rcases l with _ | ⟨a, _ | ⟨b, _ | ⟨c, _ | ⟨d, _ | ⟨e, rest⟩⟩⟩⟩⟩
    · rfl
    · simp [every5th]
    · simp [every5th]
    · simp [every5th]
    · simp [every5th]
    · have h1 : every5th (a :: b :: c :: d :: e :: rest) = a :: every5th rest := rfl
      have h4 := ih rest.length (by simp at hl; omega) rest rfl
      rw [h1]
      simp only [List.length_cons]
      rw [h4]
      omega

theorem sentinelBytes_length_five (l : List Nat) (R : Nat) (h : l.length = 5 * R) :
    (sentinelBytes l).length = R := by
  unfold sentinelBytes
  rw [every5th_length (l.drop 4).length (l.drop 4) rfl]
  have h2 : (l.drop 4).length = l.length - 4 := by simp
  rw [h2, h]
  omega

/-! ### Helper lemmas about sentinel stripping and the harvest loop -/

theorem strip_nil : strip [] = [] := rfl

theorem strip_append_five : ∀ (R : Nat) (a b : List Nat), a.length = 5 * R →
    strip (a ++ b) = strip a ++ strip b := by
  intro R
  induction R with
  | zero =>
    intro a b ha
    have : a = [] := List.length_eq_zero.mp (by omega)
    subst this
    simp [strip_nil]
  | succ R ih =>
    intro a b ha
    rcases a with _ | ⟨a0, _ | ⟨a1, _ | ⟨a2, _ | ⟨a3, _ | ⟨a4, arest⟩⟩⟩⟩⟩
    · simp at ha
    · simp at ha; omega
    · simp at ha; omega
    · simp at ha; omega
    · simp at ha; omega
    · have hs : ∀ xs : List Nat,
          strip (a0 :: a1 :: a2 :: a3 :: a4 :: xs) = a0 :: a1 :: a2 :: a3 :: strip xs :=
        fun xs => rfl
      have hlen : arest.length = 5 * R := by simp at ha; omega
      simp only [List.cons_append]
      rw [hs (arest ++ b), hs arest, ih arest b hlen]
      simp

theorem strip_length_five : ∀ (R : Nat) (l : List Nat), l.length = 5 * R →
    (strip l).length = 4 * R := by
  intro R
  induction R with
  | zero =>
    intro l hl
    have : l = [] := List.length_eq_zero.mp (by omega)
    subst this
    rfl
  | succ R ih =>
    intro l hl
    rcases l with _ | ⟨a0, _ | ⟨a1, _ | ⟨a2, _ | ⟨a3, _ | ⟨a4, arest⟩⟩⟩⟩⟩
    · simp at hl
    · simp at hl; omega
    · simp at hl; omega
    · simp at hl; omega
    · simp at hl; omega
    · have hs : strip (a0 :: a1 :: a2 :: a3 :: a4 :: arest)
          = a0 :: a1 :: a2 :: a3 :: strip arest := rfl
      have hlen : arest.length = 5 * R := by simp at hl; omega
      rw [hs]
      simp only [List.length_cons]
      rw [ih arest hlen]
      omega

theorem strip_flatten_five : ∀ (R : Nat) (bufs : List (List Nat)),
    (∀ b ∈ bufs, b.length = 5 * R) →
    strip bufs.flatten = (bufs.map strip).flatten := by
  intro R bufs
  induction bufs with
  | nil => intro _; simp [strip_nil]
  | cons b bs ih =>
    intro h
    have hb : b.length = 5 * R := h b (by simp)
    have hrest : ∀ x ∈ bs, x.length = 5 * R := fun x hx => h x (by simp [hx])
    simp only [List.flatten_cons, List.map_cons]
    rw [strip_append_five R b bs.flatten hb, ih hrest]

theorem harvestStep_corrupted (b : List Nat) (o : Nat) (h : validate b = .Corrupted o)
    (s : HarvestState) : harvestStep b s = s := by
  simp [harvestStep, h]

theorem harvestStep_valid (b : List Nat) (h : validate b = .Valid)
    (s : HarvestState) : harvestStep b s = ⟨s.i + 1, s.data ++ b⟩ := by
  simp [harvestStep, h]

theorem harvestLoop_valid_run : ∀ (bufs : List (List Nat)) (rounds : Nat) (s : HarvestState),
    (∀ b ∈ bufs, validate b = .Valid) → s.i + bufs.length ≤ rounds →
    harvestLoop rounds bufs s = ⟨s.i + bufs.length, s.data ++ bufs.flatten⟩ := by
  intro bufs
  induction bufs with
  | nil =>
    intro rounds s _ _
    rcases s with ⟨i, d⟩
    simp [harvestLoop]
  | cons b bs ih =>
    intro rounds s hv hle
    have hb : validate b = .Valid := hv b (by simp)
    have hguard : s.i < rounds := by simp at hle; omega
    rw [show harvestLoop rounds (b :: bs) s
        = if s.i < rounds then harvestLoop rounds bs (harvestStep b s) else s from rfl,
      if_pos hguard, harvestStep_valid b hb s,
      ih rounds ⟨s.i + 1, s.data ++ b⟩ (fun x hx => hv x (by simp [hx])) (by simp at hle ⊢; omega)]
    simp only [List.length_cons, List.flatten_cons, HarvestState.mk.injEq]
    constructor
    · omega
    · simp

/-! ### Claim theorems: validation (C1, C4, C10) and harvesting (C2, C3) -/

/-- C1: validation returns `Corrupted` iff at least one sentinel-position
byte (index congruent to 4 mod 5, i.e. every 5th byte starting at index 4)
differs from the sentinel `0x42`; a buffer whose sentinel-position bytes
all equal the sentinel validates as `Valid`; and validating the same
buffer twice yields the same outcome. -/
theorem c1_validate_characterization (buffer : List Nat) :
    ((∃ off, validate buffer = .Corrupted off) ↔
      ∃ p c, p % 5 = 4 ∧ buffer[p]? = some c ∧ c ≠ sentinel) ∧
    ((∀ p ∈ List.range buffer.length, p % 5 = 4 → buffer[p]? = some sentinel) →
      validate buffer = .Valid) ∧
    validate buffer = validate buffer := by
  refine ⟨?_, ?_, rfl⟩
  · rw [validate_corrupted_iff]
    constructor
    · rintro ⟨c, hc, hne⟩
      obtain ⟨p, hp, hpc⟩ := (mem_sentinelBytes_iff buffer c).mp hc
      exact ⟨p, c, hp, hpc, hne⟩
    · rintro ⟨p, c, hp, hpc, hne⟩
      exact ⟨c, (mem_sentinelBytes_iff buffer c).mpr ⟨p, hp, hpc⟩, hne⟩
  · intro hall
    rw [validate_eq_valid_iff]
    intro c hc
    obtain ⟨p, hp, hpc⟩ := (mem_sentinelBytes_iff buffer c).mp hc
    have hplen : p < buffer.length := by
      rcases List.getElem?_eq_some.mp hpc with ⟨h, _⟩
      exact h
    have heq := hall p (List.mem_range.mpr hplen) hp
    rw [heq] at hpc
    exact (Option.some.inj hpc).symm

/-- Witness for C1 at a concrete all-sentinel-correct buffer. -/
theorem c1_witness : validate [1, 2, 3, 4, 0x42] = .Valid :=
  (c1_validate_characterization [1, 2, 3, 4, 0x42]).2.1 (by decide)

/-- C2: a corrupted round leaves the loop state untouched (`continue`),
and over the outcome sequence [Corrupted, Corrupted, Valid] the dataset
grows by exactly the one valid buffer and the round counter by exactly 1. -/
theorem c2_corrupted_rounds_frame (rounds : Nat) (s : HarvestState)
    (b1 b2 b3 : List Nat) (o1 o2 : Nat)
    (h1 : validate b1 = .Corrupted o1) (h2 : validate b2 = .Corrupted o2)
    (h3 : validate b3 = .Valid) (hround : s.i < rounds) :
    harvestLoop rounds [b1, b2, b3] s = ⟨s.i + 1, s.data ++ b3⟩ ∧
    (∀ (b : List Nat) (o : Nat) (t : HarvestState),
      validate b = .Corrupted o → harvestStep b t = t) := by
  constructor
  · show (if s.i < rounds then harvestLoop rounds [b2, b3] (harvestStep b1 s) else s) = _
    rw [if_pos hround, harvestStep_corrupted b1 o1 h1 s]
    show (if s.i < rounds then harvestLoop rounds [b3] (harvestStep b2 s) else s) = _
    rw [if_pos hround, harvestStep_corrupted b2 o2 h2 s]
    show (if s.i < rounds then harvestLoop rounds [] (harvestStep b3 s) else s) = _
    rw [if_pos hround, harvestStep_valid b3 h3 s]
    rfl
  · intro b o t hb
    exact harvestStep_corrupted b o hb t

/-- Witness for C2: two corrupted reads then a valid one, from a fresh
state with a 1-round target. -/
theorem c2_witness :
    harvestLoop 1 [[0, 0, 0, 0, 0], [0, 0, 0, 0, 1], [1, 2, 3, 4, 0x42]] ⟨0, []⟩
      = ⟨0 + 1, [] ++ [1, 2, 3, 4, 0x42]⟩ :=
  (c2_corrupted_rounds_frame 1 ⟨0, []⟩ [0, 0, 0, 0, 0] [0, 0, 0, 0, 1] [1, 2, 3, 4, 0x42]
    (MEM_RNG + 5) (MEM_RNG + 5) (by decide) (by decide) (by decide) (by decide)).1

/-- The total length of the concatenation of buffers of equal length. -/
theorem flatten_length_five : ∀ (R : Nat) (bufs : List (List Nat)),
    (∀ b ∈ bufs, b.length = 5 * R) → bufs.flatten.length = bufs.length * (5 * R) := by
  intro R bufs
  induction bufs with
  | nil => intro _; simp
  | cons b bs ih =>
    intro h
    have hb : b.length = 5 * R := h b (by simp)
    have hrest : ∀ x ∈ bs, x.length = 5 * R := fun x hx => h x (by simp [hx])
    rw [List.flatten_cons, List.length_append, hb, ih hrest, List.length_cons]
    ring

/-- Stripping a length-10 buffer keeps bytes 0-3 and 5-8. -/
theorem strip_ten (b : List Nat) (hb : b.length = 10) :
    strip b = b.take 4 ++ (b.drop 5).take 4 := by
  rcases b with _ | ⟨x0, b⟩
  · simp at hb
  rcases b with _ | ⟨x1, b⟩
  · simp at hb
  rcases b with _ | ⟨x2, b⟩
  · simp at hb
  rcases b with _ | ⟨x3, b⟩
  · simp at hb
  rcases b with _ | ⟨x4, b⟩
  · simp at hb
  rcases b with _ | ⟨x5, b⟩
  · simp at hb
  rcases b with _ | ⟨x6, b⟩
  · simp at hb
  rcases b with _ | ⟨x7, b⟩
  · simp at hb
  rcases b with _ | ⟨x8, b⟩
  · simp at hb
  rcases b with _ | ⟨x9, b⟩
  · simp at hb
  have hrest : b = [] := by simpa using hb
  subst hrest
  rfl

/-- C3: a dataset built from N valid rounds of `5 * R` bytes each is the
concatenation of the buffers; stripping removes exactly the
sentinel-position bytes, leaving `N * R * 4` payload bytes; and on a
length-10 buffer stripping yields `b[0:4] + b[5:9]`. -/
theorem c3_dataset_roundtrip (bufs : List (List Nat)) (R N rounds : Nat)
    (hv : ∀ b ∈ bufs, validate b = .Valid ∧ b.length = 5 * R)
    (hN : bufs.length = N) (hle : N ≤ rounds) :
    harvestLoop rounds bufs ⟨0, []⟩ = ⟨N, bufs.flatten⟩ ∧
    strip bufs.flatten = (bufs.map strip).flatten ∧
    (strip bufs.flatten).length = N * R * 4 ∧
    (∀ b : List Nat, b.length = 10 → strip b = b.take 4 ++ (b.drop 5).take 4) := by
  refine ⟨?_, ?_, ?_, ?_⟩
  · have hrun := harvestLoop_valid_run bufs rounds ⟨0, []⟩ (fun b hb => (hv b hb).1)
      (by simp; omega)
    simpa [hN] using hrun
  · exact strip_flatten_five R bufs (fun b hb => (hv b hb).2)
  · have hflat : bufs.flatten.length = 5 * (N * R) := by
      rw [flatten_length_five R bufs (fun b hb => (hv b hb).2), hN]
      ring
    rw [strip_length_five (N * R) bufs.flatten hflat]
    exact Nat.mul_comm 4 (N * R)
  · exact fun b hb => strip_ten b hb

/-- Witness for C3 with one valid 5-byte round. -/
theorem c3_witness :
    harvestLoop 1 [[1, 2, 3, 4, 0x42]] ⟨0, []⟩ = ⟨1, [[1, 2, 3, 4, 0x42]].flatten⟩ :=
  (c3_dataset_roundtrip [[1, 2, 3, 4, 0x42]] 1 1 1 (by decide) rfl (by decide)).1

/-- Counterexample to C4 as stated: on the buffer with `b[4] = 0x42` and
`b[9] = 0x99` the harness reports the address `MEM_RNG + 10` (one byte past
the mismatching sentinel at buffer offset 9), not offset 9 — neither as a
buffer offset nor relative to `MEM_RNG`. -/
theorem c4_reported_offset_cex :
    validate [1, 2, 3, 4, 0x42, 5, 6, 7, 8, 0x99] = .Corrupted (MEM_RNG + 10) ∧
    validate [1, 2, 3, 4, 0x42, 5, 6, 7, 8, 0x99] ≠ .Corrupted 9 ∧
    validate [1, 2, 3, 4, 0x42, 5, 6, 7, 8, 0x99] ≠ .Corrupted (MEM_RNG + 9) := by
  refine ⟨by decide, by decide, by decide⟩

/-- C4 as amended: validation checks one byte per 5-byte record (giving
`R` checks on a `5 * R`-byte buffer), short-circuits at the first record
whose sentinel-position byte mismatches (bytes after that position are
unconstrained), and reports the address `MEM_RNG + (k + 1) * 5` for a
first mismatch in record `k` — i.e. one byte past the mismatching
sentinel, which is `MEM_RNG + 10` (not 9) on the example buffer. -/
theorem c4_first_mismatch_report (buffer : List Nat) :
    (∀ R, buffer.length = 5 * R → (sentinelBytes buffer).length = R) ∧
    (∀ k c, (∀ j ∈ List.range k, buffer[5 * j + 4]? = some sentinel) →
      buffer[5 * k + 4]? = some c → c ≠ sentinel →
      validate buffer = .Corrupted (MEM_RNG + (k + 1) * 5)) ∧
    validate [1, 2, 3, 4, 0x42, 5, 6, 7, 8, 0x99] = .Corrupted (MEM_RNG + 10) := by
  refine ⟨?_, ?_, by decide⟩
  · intro R hR
    exact sentinelBytes_length_five buffer R hR
  · intro k c hpre hk hne
    have hcs : (sentinelBytes buffer)[k]? = some c := by
      rw [sentinelBytes_getElem]
      exact hk
    have hpre2 : ∀ j, j < k → (sentinelBytes buffer)[j]? = some sentinel := by
      intro j hj
      rw [sentinelBytes_getElem]
      exact hpre j (List.mem_range.mpr hj)
    have hloop := checkLoop_mismatch k (sentinelBytes buffer) 0 c hcs hne hpre2
    have h2 : validate buffer = .Corrupted (MEM_RNG + (0 + k + 1) * 5) := by
      unfold validate
      rw [hloop]
    rw [h2]
    congr 1
    omega

/-- Witness for C4's amended statement at the example buffer (first
mismatch in record `k = 1`). -/
theorem c4_witness :
    validate [1, 2, 3, 4, 0x42, 5, 6, 7, 8, 0x99] = .Corrupted (MEM_RNG + (1 + 1) * 5) :=
  (c4_first_mismatch_report [1, 2, 3, 4, 0x42, 5, 6, 7, 8, 0x99]).2.1 1 0x99
    (by decide) (by decide) (by decide)

/-- C10: the validation outcome (including the reported address) depends
only on the bytes at sentinel positions: buffers of equal length agreeing
at every offset congruent to 4 mod 5 validate identically, so corruption
confined to payload positions is never detected. -/
theorem c10_sentinel_positions_determine (b1 b2 : List Nat)
    (hlen : b1.length = b2.length)
    (hagree : ∀ p ∈ List.range b1.length, p % 5 = 4 → b1[p]? = b2[p]?) :
    validate b1 = validate b2 ∧ (validate b1 = .Valid → validate b2 = .Valid) := by
  have hsb : sentinelBytes b1 = sentinelBytes b2 := by
    apply List.ext_getElem?
    intro k
    rw [sentinelBytes_getElem, sentinelBytes_getElem]
    by_cases h : 5 * k + 4 < b1.length
    · exact hagree (5 * k + 4) (List.mem_range.mpr h) (by omega)
    · rw [List.getElem?_eq_none (by omega), List.getElem?_eq_none (by omega)]
  constructor
  · unfold validate
    rw [hsb]
  · intro h
    unfold validate at h ⊢
    rw [← hsb]
    exact h

/-- Witness for C10: two buffers differing only in payload positions
validate identically. -/
theorem c10_witness :
    validate [0, 1, 2, 3, 0x42] = validate [9, 9, 9, 9, 0x42] :=
  (c10_sentinel_positions_determine [0, 1, 2, 3, 0x42] [9, 9, 9, 9, 0x42] rfl (by decide)).1

/-! ### Helper lemmas for the trigger/wait trace (C5) -/

theorem syncEvents_roundEvents (b : List Nat) :
    syncEvents (roundEvents b) = [.trigger, .waitReturn] := by
  cases h : validate b <;> simp [roundEvents, syncEvents, h]

theorem syncEvents_trace : ∀ (bufs : List (List Nat)) (rounds : Nat) (s : HarvestState),
    ∃ n, syncEvents (harvestTrace rounds bufs s) = triggerWaitPairs n := by
  intro bufs
  induction bufs with
  | nil => intro rounds s; exact ⟨0, rfl⟩
  | cons b bs ih =>
    intro rounds s
    by_cases hguard : s.i < rounds
    · obtain ⟨n, hn⟩ := ih rounds (harvestStep b s)
      refine ⟨n + 1, ?_⟩
      show syncEvents
        (if s.i < rounds then roundEvents b ++ harvestTrace rounds bs (harvestStep b s)
          else []) = _
      rw [if_pos hguard]
      show (roundEvents b ++ harvestTrace rounds bs (harvestStep b s)).filter _
        = triggerWaitPairs (n + 1)
      rw [List.filter_append]
      show syncEvents (roundEvents b) ++ syncEvents (harvestTrace rounds bs (harvestStep b s))
        = triggerWaitPairs (n + 1)
      rw [syncEvents_roundEvents, hn]
      rfl
    · refine ⟨0, ?_⟩
      show syncEvents
        (if s.i < rounds then roundEvents b ++ harvestTrace rounds bs (harvestStep b s)
          else []) = _
      rw [if_neg hguard]
      rfl

theorem pairs_prefix_counts : ∀ (n : Nat) (a b : List Event),
    a ++ b = triggerWaitPairs n →
    a.count Event.waitReturn ≤ a.count Event.trigger ∧
    a.count Event.trigger ≤ a.count Event.waitReturn + 1 := by
  intro n
  induction n with
  | zero =>
    intro a b h
    have ha : a = [] := (List.append_eq_nil.mp h).1
    subst ha
    simp
  | succ n ih =>
    intro a b h
    rcases a with _ | ⟨e1, a⟩
    · simp
    rcases a with _ | ⟨e2, a⟩
    · simp only [List.cons_append, List.nil_append, triggerWaitPairs, List.cons.injEq] at h
      obtain ⟨he1, -⟩ := h
      subst he1
      decide
    simp only [List.cons_append, triggerWaitPairs, List.cons.injEq] at h
    obtain ⟨he1, he2, hrest⟩ := h
    subst he1
    subst he2
    obtain ⟨ih1, ih2⟩ := ih a b hrest
    refine ⟨?_, ?_⟩
    all_goals simp [List.count_cons]
    exacts [ih1, ih2]


theorem count_syncEvents : ∀ l : List Event,
    (syncEvents l).count Event.trigger = l.count Event.trigger ∧
    (syncEvents l).count Event.waitReturn = l.count Event.waitReturn := by
  intro l
  induction l with
  | nil => exact ⟨rfl, rfl⟩
  | cons e l ih =>
    obtain ⟨ih1, ih2⟩ := ih
    cases e <;>
      simp [syncEvents, List.filter_cons, List.count_cons] at * <;>
      omega

/-- C5: in every session trace, the projection onto triggers and
wait-returns is a strict alternation of (trigger, wait-return) pairs
starting with a trigger, and in every prefix of the trace the number of
triggers issued exceeds the number of completed waits by at most one and
is never behind it: exactly one trigger is outstanding between a
`launchRam` and the return of its wait, and no second trigger is ever
issued while one is outstanding. -/
theorem c5_single_outstanding_trigger (rounds : Nat) (bufs : List (List Nat))
    (s : HarvestState) :
    (∃ n, syncEvents (harvestTrace rounds bufs s) = triggerWaitPairs n) ∧
    (∀ p q : List Event, p ++ q = harvestTrace rounds bufs s →
      p.count Event.waitReturn ≤ p.count Event.trigger ∧
      p.count Event.trigger ≤ p.count Event.waitReturn + 1) := by
  obtain ⟨n, hn⟩ := syncEvents_trace bufs rounds s
  refine ⟨⟨n, hn⟩, ?_⟩
  intro p q hpq
  have hsplit : syncEvents p ++ syncEvents q = triggerWaitPairs n := by
    show p.filter _ ++ q.filter _ = _
    rw [← List.filter_append]
    show syncEvents (p ++ q) = _
    rw [hpq, hn]
  have hc := pairs_prefix_counts n (syncEvents p) (syncEvents q) hsplit
  obtain ⟨hct, hcw⟩ := count_syncEvents p
  rw [hct, hcw] at hc
  exact hc

/-- Witness for C5: the one-round trace, cut just after its trigger. -/
theorem c5_witness :
    [Event.trigger].count Event.waitReturn ≤ [Event.trigger].count Event.trigger ∧
    [Event.trigger].count Event.trigger ≤ [Event.trigger].count Event.waitReturn + 1 :=
  (c5_single_outstanding_trigger 1 [[1, 2, 3, 4, 0x42]] ⟨0, []⟩).2
    [.trigger] [.waitReturn, .readEv, .acceptEv] (by decide)

/-! ### Helper lemmas for the completion signal (C6) -/

theorem rngStatusCallback_false_iff (p : HciPacket) :
    rngStatusCallback false p = true ↔ isRandNotif p := by
  rcases p with ⟨ie, d⟩
  cases ie
  · simp [rngStatusCallback, isRandNotif]
  · simp only [rngStatusCallback, isRandNotif]
    split <;> simp_all

theorem rngStatusCallback_true (p : HciPacket) : rngStatusCallback true p = true := by
  rcases p with ⟨ie, d⟩
  cases ie <;> simp [rngStatusCallback]

theorem rngStatusCallback_false_of_not (p : HciPacket) (h : ¬ isRandNotif p) :
    rngStatusCallback false p = false := by
  cases hb : rngStatusCallback false p
  · rfl
  · exact absurd ((rngStatusCallback_false_iff p).mp hb) h

theorem flagAfter_true : ∀ ps : List HciPacket, flagAfter ps true = true := by
  intro ps
  induction ps with
  | nil => rfl
  | cons p ps ih =>
    show flagAfter ps (rngStatusCallback true p) = true
    rw [rngStatusCallback_true]
    exact ih

theorem flagAfter_false_iff : ∀ ps : List HciPacket,
    flagAfter ps false = true ↔ ∃ p ∈ ps, isRandNotif p := by
  intro ps
  induction ps with
  | nil => simp [flagAfter]
  | cons p ps ih =>
    show flagAfter ps (rngStatusCallback false p) = true ↔ _
    by_cases hp : isRandNotif p
    · rw [(rngStatusCallback_false_iff p).mpr hp, flagAfter_true]
      simp [hp]
    · rw [rngStatusCallback_false_of_not p hp, ih]
      simp [hp]

theorem waitForDone_none_iff : ∀ ps : List HciPacket,
    waitForDone ps = none ↔ ∀ p ∈ ps, ¬ isRandNotif p := by
  intro ps
  induction ps with
  | nil => simp [waitForDone]
  | cons p ps ih =>
    show (if rngStatusCallback false p then some (1, ps)
        else (waitForDone ps).map (fun r => (r.1 + 1, r.2))) = none ↔ _
    by_cases hp : isRandNotif p
    · rw [if_pos ((rngStatusCallback_false_iff p).mpr hp)]
      simp [hp]
    · rw [if_neg (by rw [rngStatusCallback_false_of_not p hp]; exact Bool.false_ne_true)]
      rw [Option.map_eq_none', ih]
      simp [hp]

theorem waitForDone_some_decomp : ∀ (ps : List HciPacket) (k : Nat) (rest : List HciPacket),
    waitForDone ps = some (k, rest) →
    ∃ pre m, ps = pre ++ m :: rest ∧ (∀ p ∈ pre, ¬ isRandNotif p) ∧
      isRandNotif m ∧ k = pre.length + 1 := by
  intro ps
  induction ps with
  | nil =>
    intro k rest h
    exact absurd h (by simp [waitForDone])
  | cons p ps ih =>
    intro k rest h
    by_cases hp : isRandNotif p
    · rw [show waitForDone (p :: ps) = if rngStatusCallback false p then some (1, ps)
          else (waitForDone ps).map (fun r => (r.1 + 1, r.2)) from rfl,
        if_pos ((rngStatusCallback_false_iff p).mpr hp)] at h
      simp only [Option.some.injEq, Prod.mk.injEq] at h
      obtain ⟨hk, hrest⟩ := h
      exact ⟨[], p, by simp [hrest], by simp, hp, by simp only [List.length_nil]; omega⟩
    · rw [show waitForDone (p :: ps) = if rngStatusCallback false p then some (1, ps)
          else (waitForDone ps).map (fun r => (r.1 + 1, r.2)) from rfl,
        if_neg (by rw [rngStatusCallback_false_of_not p hp]; exact Bool.false_ne_true),
        Option.map_eq_some'] at h
      obtain ⟨⟨k2, rest2⟩, hw, heq⟩ := h
      simp only [Prod.mk.injEq] at heq
      obtain ⟨hk, hrest⟩ := heq
      obtain ⟨pre, m, hps, hpre, hm, hkk⟩ := ih k2 rest2 hw
      refine ⟨p :: pre, m, ?_, ?_, hm, ?_⟩
      · rw [← hrest, List.cons_append, hps]
      · intro x hx
        rcases List.mem_cons.mp hx with hxp | hxpre
        · subst hxp; exact hp
        · exact hpre x hxpre
      · simp only [List.length_cons]
        omega

/-- C6: the busy-wait on `rnd_done` never returns while no notification
carrying the 4-byte marker `RAND` has arrived; when it returns, the
stream of HCI records decomposes as non-matching records followed by one
marker-carrying HCI event, which is exactly what released it; and the
flag is set after a batch of records iff one of them is a marker-carrying
HCI event. The host is released by the callback on these records, not by
re-reading device memory: the wait is a function of the record stream
alone. -/
theorem c6_wait_released_by_marker (ps : List HciPacket) :
    (waitForDone ps = none ↔ ∀ p ∈ ps, ¬ isRandNotif p) ∧
    (∀ k rest, waitForDone ps = some (k, rest) →
      ∃ pre m, ps = pre ++ m :: rest ∧ (∀ p ∈ pre, ¬ isRandNotif p) ∧
        isRandNotif m ∧ k = pre.length + 1) ∧
    (flagAfter ps false = true ↔ ∃ p ∈ ps, isRandNotif p) :=
  ⟨waitForDone_none_iff ps, fun k rest h => waitForDone_some_decomp ps k rest h,
    flagAfter_false_iff ps⟩

/-- Witness for C6: a single marker-carrying HCI event releases the wait
immediately. -/
theorem c6_witness :
    ∃ pre m, [HciPacket.mk true [0x52, 0x41, 0x4E, 0x44]]
        = pre ++ m :: ([] : List HciPacket) ∧ (∀ p ∈ pre, ¬ isRandNotif p) ∧
      isRandNotif m ∧ 1 = pre.length + 1 :=
  (c6_wait_released_by_marker [⟨true, [0x52, 0x41, 0x4E, 0x44]⟩]).2.1 1 [] rfl

/-! ### Error-handling phases (C7), patch widths (C8), assembly (C9) -/

/-- Counterexample to C7 as stated: a failed per-round read is not
retried by the harvesting loop — the loop body has no handler around
`readMem`, so the failure escapes to the caller instead. -/
theorem c7_read_failure_cex :
    roundWithRead .fail ⟨0, []⟩ = .escaped ∧
    RoundOutcome.escaped ≠ .retried ⟨0, []⟩ :=
  ⟨rfl, by decide⟩

/-- C7 as amended: a failure of the one-time install write or of either
patch-site write aborts the entire session, while a failure of a
per-round buffer read is unhandled by the harvesting loop and escapes to
the caller; only corruption detected in a successfully read buffer causes
a same-round retry. -/
theorem c7_phase_error_policy (writeOk patchRngOk patchLaunchOk : Bool) (s : HarvestState) :
    (writeOk = false ∨ patchRngOk = false ∨ patchLaunchOk = false →
      installPhase writeOk patchRngOk patchLaunchOk = .aborted) ∧
    roundWithRead .fail s = .escaped ∧
    (∀ s2, roundWithRead .fail s ≠ .retried s2) ∧
    (∀ buf o, validate buf = .Corrupted o → roundWithRead (.ok buf) s = .retried s) := by
  refine ⟨?_, rfl, ?_, ?_⟩
  · intro h
    cases writeOk <;> cases patchRngOk <;> cases patchLaunchOk <;> simp_all [installPhase]
  · intro s2
    simp [roundWithRead]
  · intro buf o h
    simp [roundWithRead, h]

/-- Witness for C7's amended statement: a failed install write aborts. -/
theorem c7_witness : installPhase false true true = SessionPhase.aborted :=
  (c7_phase_error_policy false true true ⟨0, []⟩).1 (Or.inl rfl)

/-- C8: both patch-site overwrites write exactly 4 bytes — the Thumb
`bx lr; bx lr` neutralization of the original RNG function and the
packed handler-table redirect — matching the device's minimum atomic
patch width and never exceeding the 4-byte instruction slot. -/
theorem c8_patch_width :
    rngNeutralizePatch.length = PATCH_SLOT_WIDTH ∧
    launchRamFixPatch.length = PATCH_SLOT_WIDTH ∧
    (∀ n, (p32 n).length = PATCH_SLOT_WIDTH) ∧
    rngNeutralizePatch.length ≤ 4 ∧ launchRamFixPatch.length ≤ 4 :=
  ⟨rfl, rfl, fun _ => rfl, by decide, by decide⟩

/-- C9: patch assembly is deterministic — substituting the same round
count and destination address into the same template and assembling at
the same load address twice yields identical byte images, for any (pure)
assembler. -/
theorem c9_assemble_deterministic (asmFun : String → Nat → List Nat)
    (template : String) (roundCount dstAddress vma : Nat) (r1 r2 : List Nat)
    (h1 : r1 = assembleSnippet asmFun template roundCount dstAddress vma)
    (h2 : r2 = assembleSnippet asmFun template roundCount dstAddress vma) :
    r1 = r2 := by
  rw [h1, h2]

/-- Witness for C9 on the actual snippet template and session parameters,
with a concrete stand-in assembler. -/
theorem c9_witness :
    assembleSnippet (fun t vma => t.data.map Char.toNat ++ p32 vma)
        ASM_SNIPPET_RNG MEM_ROUNDS MEM_RNG ASM_LOCATION_RNG
      = assembleSnippet (fun t vma => t.data.map Char.toNat ++ p32 vma)
        ASM_SNIPPET_RNG MEM_ROUNDS MEM_RNG ASM_LOCATION_RNG :=
  c9_assemble_deterministic (fun t vma => t.data.map Char.toNat ++ p32 vma)
    ASM_SNIPPET_RNG MEM_ROUNDS MEM_RNG ASM_LOCATION_RNG _ _ rfl rfl
